import Mathlib

/-!
Verification of `scripts/update_conda.py`, a release-automation helper that
computes SHA-256 checksums for a fixed set of release archives and rewrites a
package-metadata template with a new version string and the checksums.

Shallow embedding conventions:
* file contents are `List Nat` (bytes, each `< 256`);
* text is `List Char`;
* the release directory is an association list from file name to file bytes;
* the SHA-256 accumulator of `hashlib` is modelled by the bytes fed so far
  (per the library contract `m.update(a); m.update(b) = m.update(a ++ b)`),
  with the full SHA-256 algorithm run at `hexdigest` time;
* `re.sub` / `str.replace` are modelled by left-to-right scanning functions
  (`subVersion`, `replaceAll`); the replacement text is inserted literally,
  which coincides with Python for backslash-free replacement strings.
-/

set_option maxRecDepth 100000

namespace UpdateConda

/-- Fuel-driven worker for `chunkList`. -/
def chunkGo (n : Nat) : Nat → List α → List (List α)
  | 0, _ => []
  | _ + 1, [] => []
  | fuel + 1, a :: l => ((a :: l).take n) :: chunkGo n fuel ((a :: l).drop n)

/-- Split a list into chunks of `n` elements (`n > 0`), stopping at the empty
remainder. This mirrors `iter(lambda: f.read(4096), b"")`. -/
def chunkList (n : Nat) (l : List α) : List (List α) :=
  chunkGo n l.length l

/-- Truncation to a 32-bit word. -/
def w32 (n : Nat) : Nat := n % 4294967296

/-- Right rotation of a 32-bit word. -/
def rotr (b n : Nat) : Nat := w32 ((n >>> b) ||| (n <<< (32 - b)))

/-- SHA-256 small sigma 0. -/
def ssig0 (x : Nat) : Nat := (rotr 7 x) ^^^ (rotr 18 x) ^^^ (x >>> 3)

/-- SHA-256 small sigma 1. -/
def ssig1 (x : Nat) : Nat := (rotr 17 x) ^^^ (rotr 19 x) ^^^ (x >>> 10)

/-- SHA-256 round constants. -/
def K256 : List Nat :=
  [1116352408, 1899447441, 3049323471, 3921009573, 961987163, 1508970993,
   2453635748, 2870763221, 3624381080, 310598401, 607225278, 1426881987,
   1925078388, 2162078206, 2614888103, 3248222580, 3835390401, 4022224774,
   264347078, 604807628, 770255983, 1249150122, 1555081692, 1996064986,
   2554220882, 2821834349, 2952996808, 3210313671, 3336571891, 3584528711,
   113926993, 338241895, 666307205, 773529912, 1294757372, 1396182291,
   1695183700, 1986661051, 2177026350, 2456956037, 2730485921, 2820302411,
   3259730800, 3345764771, 3516065817, 3600352804, 4094571909, 275423344,
   430227734, 506948616, 659060556, 883997877, 958139571, 1322822218,
   1537002063, 1747873779, 1955562222, 2024104815, 2227730452, 2361852424,
   2428436474, 2756734187, 3204031479, 3329325298]

/-- SHA-256 initial hash state. -/
def H256 : List Nat :=
  [1779033703, 3144134277, 1013904242, 2773480762, 1359893119, 2600822924,
   528734635, 1541459225]

/-- Next word of the message schedule, extending the current word list. -/
def schedNext (w : List Nat) : Nat :=
  w32 (ssig1 (w.getD (w.length - 2) 0) + w.getD (w.length - 7) 0 +
       ssig0 (w.getD (w.length - 15) 0) + w.getD (w.length - 16) 0)

/-- Extend the schedule by `k` further words. -/
def schedAux : Nat → List Nat → List Nat
  | 0, w => w
  | k + 1, w => schedAux k (w ++ [schedNext w])

/-- Full 64-word message schedule from a 16-word block. -/
def schedule (block : List Nat) : List Nat := schedAux 48 block

/-- One SHA-256 compression round on an 8-word state. -/
def compress1 (st : List Nat) (kw : Nat × Nat) : List Nat :=
  let a := st.getD 0 0
  let b := st.getD 1 0
  let c := st.getD 2 0
  let d := st.getD 3 0
  let e := st.getD 4 0
  let f := st.getD 5 0
  let g := st.getD 6 0
  let h := st.getD 7 0
  let s1 := (rotr 6 e) ^^^ (rotr 11 e) ^^^ (rotr 25 e)
  let ch := (e &&& f) ^^^ ((4294967295 - e) &&& g)
  let temp1 := w32 (h + s1 + ch + kw.1 + kw.2)
  let s0 := (rotr 2 a) ^^^ (rotr 13 a) ^^^ (rotr 22 a)
  let maj := (a &&& b) ^^^ (a &&& c) ^^^ (b &&& c)
  let temp2 := w32 (s0 + maj)
  [w32 (temp1 + temp2), a, b, c, w32 (d + temp1), e, f, g]

/-- Process one 16-word block, updating the 8-word hash state. -/
def compressBlock (st : List Nat) (block : List Nat) : List Nat :=
  let fin := (K256.zip (schedule block)).foldl compress1 st
  List.zipWith (fun x y => w32 (x + y)) st fin

/-- Big-endian word from a byte list. -/
def beWord (bs : List Nat) : Nat := bs.foldl (fun a b => a * 256 + b) 0

/-- Eight big-endian bytes of `n` (used for the 64-bit length field). -/
def lenBytes (n : Nat) : List Nat :=
  [7, 6, 5, 4, 3, 2, 1, 0].map (fun i => (n >>> (8 * i)) % 256)

/-- SHA-256 padding: append `0x80`, zeros, and the 64-bit bit length. -/
def padMsg (m : List Nat) : List Nat :=
  m ++ [128] ++ List.replicate ((119 - (m.length % 64)) % 64) 0 ++
    lenBytes (8 * m.length)

/-- The padded message as a list of 16-word blocks. -/
def toBlocks (m : List Nat) : List (List Nat) :=
  (chunkList 64 (padMsg m)).map (fun blk => (chunkList 4 blk).map beWord)

/-- SHA-256 digest of a byte list, as 32 bytes. -/
def sha256Bytes (m : List Nat) : List Nat :=
  ((toBlocks m).foldl compressBlock H256).foldr
    (fun w acc =>
      ((w >>> 24) % 256) :: ((w >>> 16) % 256) :: ((w >>> 8) % 256) ::
        (w % 256) :: acc) []

/-- The sixteen hexadecimal digit characters. -/
def hexDigits : List Char := "0123456789abcdef".toList

/-- Hexadecimal digit character for a value below 16. -/
def hexChar (n : Nat) : Char := hexDigits.getD n '0'

/-- Two lowercase hex characters of a byte. -/
def byteHex (b : Nat) : List Char := [hexChar ((b / 16) % 16), hexChar (b % 16)]

/-- Lowercase hexadecimal SHA-256 digest of a byte list. -/
def sha256Hex (m : List Nat) : List Char :=
  (sha256Bytes m).foldr (fun b acc => byteHex b ++ acc) []

/-- The `hashlib.sha256()` accumulator, modelled by the bytes fed so far. -/
structure HashCtx where
  data : List Nat

/-- `hashlib` update: feed a block of bytes to the accumulator. -/
def HashCtx.update (ctx : HashCtx) (block : List Nat) : HashCtx :=
  ⟨ctx.data ++ block⟩

/-- `hashlib` hexdigest of the accumulated bytes. -/
def HashCtx.hexdigest (ctx : HashCtx) : List Char := sha256Hex ctx.data

/-- `calculate_sha256`: read the file in 4096-byte chunks until end-of-stream,
feeding each chunk to the accumulator, then take the hex digest. -/
def calculate_sha256 (content : List Nat) : List Char :=
  ((chunkList 4096 content).foldl HashCtx.update ⟨[]⟩).hexdigest

/-! ### Text substitution: `re.sub` on the version pattern, `str.replace` -/

/-- The literal prefix of the version-declaration pattern,
`{% set version = "` (the regex up to the `[^"]+` group). -/
def patPre : List Char := "\x7b% set version = \"".toList

/-- The literal suffix of the version-declaration pattern, `" %}`. -/
def patSuf : List Char := "\" %\x7d".toList

/-- Length (in characters) of a match of the regex
`{% set version = "[^"]+" %}` at the start of `s`, if any.  The greedy
character class `[^"]+` cannot match `"`, so a match consists of `patPre`,
a maximal nonempty run of non-quote characters, and `patSuf`. -/
def vMatchLen (s : List Char) : Option Nat :=
  if patPre.isPrefixOf s then
    let t := s.drop patPre.length
    let inner := t.takeWhile (fun c => c ≠ '"')
    if inner.length = 0 then none
    else if patSuf.isPrefixOf (t.drop inner.length) then
      some (patPre.length + inner.length + patSuf.length)
    else none
  else none

/-- Fuel-driven worker for `subVersion`. -/
def subVersionGo (repl : List Char) : Nat → List Char → List Char
  | 0, s => s
  | _ + 1, [] => []
  | fuel + 1, c :: rest =>
      match vMatchLen (c :: rest) with
      | some n => repl ++ subVersionGo repl fuel ((c :: rest).drop n)
      | none => c :: subVersionGo repl fuel rest

/-- `re.sub(r'{% set version = "[^"]+" %}', repl, s)`: scan left to right,
replacing every non-overlapping match by `repl` (inserted literally; this
coincides with Python for backslash-free `repl`). -/
def subVersion (repl s : List Char) : List Char := subVersionGo repl s.length s

/-- Fuel-driven worker for `replaceAll`. -/
def replaceAllGo (old new : List Char) : Nat → List Char → List Char
  | 0, s => s
  | _ + 1, [] => []
  | fuel + 1, c :: rest =>
      if old.isPrefixOf (c :: rest) && !old.isEmpty then
        new ++ replaceAllGo old new fuel ((c :: rest).drop old.length)
      else c :: replaceAllGo old new fuel rest

/-- `s.replace(old, new)` for nonempty `old`: replace every non-overlapping
occurrence, scanning left to right. -/
def replaceAll (old new s : List Char) : List Char :=
  replaceAllGo old new s.length s

/-! ### The update operation -/

/-- `version.startswith('v')` normalization: returns
(`version_num`, `version`) — the bare and the tagged form. -/
def normalize (v : List Char) : List Char × List Char :=
  if v.head? = some 'v' then (v.drop 1, v) else (v, 'v' :: v)

/-- The fixed archive-file table: file name and placeholder token, in the
insertion order of the Python dict literal. -/
def filesTable : List (List Char × List Char) :=
  [("cloudworkstation-linux-amd64.tar.gz".toList,
    "REPLACE_WITH_ACTUAL_CHECKSUM_LINUX_AMD64".toList),
   ("cloudworkstation-linux-arm64.tar.gz".toList,
    "REPLACE_WITH_ACTUAL_CHECKSUM_LINUX_ARM64".toList),
   ("cloudworkstation-darwin-amd64.tar.gz".toList,
    "REPLACE_WITH_ACTUAL_CHECKSUM_DARWIN_AMD64".toList),
   ("cloudworkstation-darwin-arm64.tar.gz".toList,
    "REPLACE_WITH_ACTUAL_CHECKSUM_DARWIN_ARM64".toList),
   ("cloudworkstation-windows-amd64.zip".toList,
    "REPLACE_WITH_ACTUAL_CHECKSUM_WINDOWS".toList)]

/-- A release directory: file name to file bytes. -/
def Dir : Type := List (List Char × List Nat)

/-- `os.path.exists` plus reading: the bytes of `name` in `dir`, if present. -/
def lookupFile (dir : Dir) (name : List Char) : Option (List Nat) :=
  match List.find? (fun pr => pr.1 == name) dir with
  | some pr => some pr.2
  | none => none

/-- The `checksums` mapping: for each table entry whose file exists, the pair
(placeholder, digest), in table order. -/
def buildChecksums (dir : Dir) : List (List Char × List Char) :=
  filesTable.foldl
    (fun acc pr =>
      match lookupFile dir pr.1 with
      | some content => acc ++ [(pr.2, calculate_sha256 content)]
      | none => acc) []

/-- Apply every recorded placeholder→digest replacement, in order. -/
def applyChecksums (cs : List (List Char × List Char)) (c : List Char) :
    List Char :=
  cs.foldl (fun c pr => replaceAll pr.1 pr.2 c) c

/-- The pure content transformation of `update_meta_yaml`: version
substitution followed by the checksum replacements. -/
def updateContent (version : List Char) (dir : Dir) (content : List Char) :
    List Char :=
  let bare := (normalize version).1
  applyChecksums (buildChecksums dir)
    (subVersion (patPre ++ bare ++ patSuf) content)

/-- `os.path.join(release_dir, file_name)` for a directory path without a
trailing separator. -/
def joinPath (dir name : List Char) : List Char := dir ++ '/' :: name

/-- Stdout line for a computed checksum. -/
def checksumLine (name digest : List Char) : List Char :=
  "Calculated checksum for ".toList ++ name ++ ": ".toList ++ digest

/-- Stdout warning line for a missing archive file. -/
def warnLine (path : List Char) : List Char :=
  "Warning: ".toList ++ path ++
    " not found, skipping checksum calculation".toList

/-- The final stdout summary line; it interpolates `version_num`. -/
def finalLine (bare : List Char) : List Char :=
  "\nUpdated scripts/conda/meta.yaml with version ".toList ++ bare ++
    " and new checksums.".toList

/-- All stdout lines printed by `update_meta_yaml`, in order. -/
def updateLogs (version : List Char) (dirPath : List Char) (dir : Dir) :
    List (List Char) :=
  (filesTable.map (fun pr =>
    match lookupFile dir pr.1 with
    | some c => checksumLine pr.1 (calculate_sha256 c)
    | none => warnLine (joinPath dirPath pr.1))) ++
  [finalLine (normalize version).1]

/-! ### Segment view of templates

A well-formed metadata template is a concatenation of segments: literal
chunks, placeholder tokens, and version-declaration lines.  The update
operation is analysed segment by segment. -/

/-- File name of the `i`-th archive in the fixed table. -/
def fname (i : Fin 5) : List Char := (filesTable.getD i.1 ([], [])).1

/-- Placeholder token of the `i`-th archive in the fixed table. -/
def pholder (i : Fin 5) : List Char := (filesTable.getD i.1 ([], [])).2

/-- A template segment: literal text, a placeholder token, or a
version-declaration line with inner text `w`. -/
inductive Seg
  | lit (s : List Char)
  | ph (i : Fin 5)
  | vdecl (w : List Char)
deriving DecidableEq

/-- The text of one segment. -/
def Seg.render : Seg → List Char
  | .lit s => s
  | .ph i => pholder i
  | .vdecl w => patPre ++ w ++ patSuf

/-- The text of a segment list. -/
def render : List Seg → List Char
  | [] => []
  | sg :: t => sg.render ++ render t

/-- A bare version that interacts with the template only as intended: it is
nonempty (so the substituted line still matches the pattern), has no quote,
no opening brace, no `R` (so it cannot complete a pattern or placeholder
occurrence), and no backslash (so `re.sub` inserts it literally). -/
def goodBare (w : List Char) : Prop :=
  w ≠ [] ∧ '"' ∉ w ∧ '\x7b' ∉ w ∧ 'R' ∉ w ∧ '\\' ∉ w

/-- A literal chunk that can start neither a version-pattern match (no
opening brace) nor a placeholder occurrence (no `R`). -/
def litOK (s : List Char) : Prop := '\x7b' ∉ s ∧ 'R' ∉ s

instance decGoodBare (w : List Char) : Decidable (goodBare w) :=
  inferInstanceAs (Decidable (w ≠ [] ∧ '"' ∉ w ∧ '\x7b' ∉ w ∧ 'R' ∉ w ∧ '\\' ∉ w))

instance decLitOK (s : List Char) : Decidable (litOK s) :=
  inferInstanceAs (Decidable ('\x7b' ∉ s ∧ 'R' ∉ s))

/-- Well-formedness of one segment. -/
def wfSeg : Seg → Prop
  | .lit s => litOK s
  | .ph _ => True
  | .vdecl w => goodBare w

instance decWfSeg : (sg : Seg) → Decidable (wfSeg sg)
  | .lit s => inferInstanceAs (Decidable (litOK s))
  | .ph _ => inferInstanceAs (Decidable True)
  | .vdecl w => inferInstanceAs (Decidable (goodBare w))

/-- Well-formedness of a template decomposition. -/
def wf (segs : List Seg) : Prop := ∀ sg ∈ segs, wfSeg sg

instance decWf (segs : List Seg) : Decidable (wf segs) :=
  inferInstanceAs (Decidable (∀ sg ∈ segs, wfSeg sg))

/-- `pqMismatch p q = true` iff comparing `p` against the text starting at
`q` fails strictly inside `q`, whatever text follows `q`. -/
def pqMismatch : List Char → List Char → Bool
  | _, [] => false
  | [], _ :: _ => false
  | a :: p', b :: q' => a != b || pqMismatch p' q'

/-- `skipOKb p q = true` iff no occurrence of `p` can start inside `q`,
whatever text follows `q`. -/
def skipOKb (p : List Char) : List Char → Bool
  | [] => true
  | b :: q' => pqMismatch p (b :: q') && skipOKb p q'

/-- Segment transform of the version substitution. -/
def vSubF (bare : List Char) : Seg → Seg
  | .vdecl _ => .vdecl bare
  | sg => sg

/-- Segment transform of one placeholder replacement. -/
def phF (p d : List Char) : Seg → Seg
  | .ph j => if pholder j = p then .lit d else .ph j
  | sg => sg

/-- `vSubF` mapped over a decomposition. -/
def mapVSub (bare : List Char) (segs : List Seg) : List Seg :=
  segs.map (vSubF bare)

/-- `phF` mapped over a decomposition. -/
def mapPh (p d : List Char) (segs : List Seg) : List Seg :=
  segs.map (phF p d)

/-- The per-segment effect of the whole update operation. -/
def segF (version : List Char) (dir : Dir) (sg : Seg) : Seg :=
  (buildChecksums dir).foldl (fun s pr => phF pr.1 pr.2 s)
    (vSubF (normalize version).1 sg)

/-- The whole update operation at the segment level. -/
def segUpdate (version : List Char) (dir : Dir) (segs : List Seg) : List Seg :=
  (buildChecksums dir).foldl (fun sgs pr => mapPh pr.1 pr.2 sgs)
    (mapVSub (normalize version).1 segs)

/-! ### The entry point -/

/-- Filesystem events on the metadata template file. -/
inductive FsEvent
  | readTemplate
  | writeTemplate (content : List Char)
deriving DecidableEq

/-- The world visible to `main`: whether the release-directory argument names
a directory, the directory's files, and the current template text. -/
structure World where
  dirIsDir : Bool
  dirFiles : Dir
  template : List Char

/-- `update_meta_yaml` as observed on the filesystem: it reads the template,
transforms it, and writes it back. -/
def update_meta_yaml (version : List Char) (w : World) :
    List Char × List FsEvent :=
  let out := updateContent version w.dirFiles w.template
  (out, [FsEvent.readTemplate, FsEvent.writeTemplate out])

/-- `main`: check `os.path.isdir(release_dir)`; on failure return 1 without
touching the template, otherwise run the update and return 0.  Result:
(exit status, final template text, template-file events). -/
def mainRun (version : List Char) (w : World) :
    Nat × List Char × List FsEvent :=
  if w.dirIsDir then
    let r := update_meta_yaml version w
    (0, r.1, r.2)
  else
    (1, w.template, [])

/-! ## Lemmas about the version-pattern scanner -/

/-- A successful pattern match has positive length. -/
theorem vMatchLen_pos {s : List Char} {n : Nat} (h : vMatchLen s = some n) :
    0 < n := by
  simp only [vMatchLen] at h
  split at h
  · split at h
    · exact absurd h (by simp)
    · split at h
      · have hp : (0 : Nat) < patPre.length := by decide
        simp only [Option.some.injEq] at h
        omega
      · exact absurd h (by simp)
  · exact absurd h (by simp)

/-- A successful pattern match starts with an opening brace. -/
theorem vMatchLen_head {c : Char} {rest : List Char} {n : Nat}
    (h : vMatchLen (c :: rest) = some n) : c = '\x7b' := by
  simp only [vMatchLen] at h
  split at h
  · rename_i hpre
    have hp := List.isPrefixOf_iff_prefix.mp hpre
    obtain ⟨t, ht⟩ := hp
    have hpat : patPre = '\x7b' :: "% set version = \"".toList := by decide
    rw [hpat, List.cons_append] at ht
    exact (List.cons.injEq _ _ _ _ ▸ ht).1.symm
  · exact absurd h (by simp)

/-- The scanner result does not depend on the fuel, once sufficient. -/
theorem subVersionGo_fuel (repl : List Char) :
    ∀ (f₁ : Nat) (f₂ : Nat) (s : List Char), s.length ≤ f₁ → s.length ≤ f₂ →
      subVersionGo repl f₁ s = subVersionGo repl f₂ s := by
  intro f₁
  induction f₁ with
  | zero =>
    intro f₂ s h1 _
    have hs : s = [] := List.length_eq_zero.mp (Nat.le_zero.mp h1)
    subst hs
    cases f₂ <;> rfl
  | succ g ih =>
    intro f₂ s h1 h2
    cases s with
    | nil => cases f₂ <;> rfl
    | cons c rest =>
      cases f₂ with
      | zero => simp at h2
      | succ g₂ =>
        simp only [subVersionGo]
        cases hm : vMatchLen (c :: rest) with
        | some n =>
          have hpos := vMatchLen_pos hm
          have hl : ((c :: rest).drop n).length ≤ g := by
            simp only [List.length_drop, List.length_cons]
            simp only [List.length_cons] at h1
            omega
          have hl2 : ((c :: rest).drop n).length ≤ g₂ := by
            simp only [List.length_drop, List.length_cons]
            simp only [List.length_cons] at h2
            omega
          exact congrArg (fun x => repl ++ x) (ih g₂ _ hl hl2)
        | none =>
          have hl : rest.length ≤ g := by
            simp only [List.length_cons] at h1; omega
          have hl2 : rest.length ≤ g₂ := by
            simp only [List.length_cons] at h2; omega
          exact congrArg (fun x => c :: x) (ih g₂ _ hl hl2)

/-- Unfolding `subVersion` at a match. -/
theorem subVersion_match {s : List Char} {n : Nat} (repl : List Char)
    (h : vMatchLen s = some n) :
    subVersion repl s = repl ++ subVersion repl (s.drop n) := by
  cases s with
  | nil =>
    have : vMatchLen ([] : List Char) = none := by decide
    rw [this] at h; exact absurd h (by simp)
  | cons c rest =>
    show subVersionGo repl (c :: rest).length (c :: rest) = _
    simp only [List.length_cons, subVersionGo, h]
    congr 1
    apply subVersionGo_fuel
    · simp only [List.length_drop, List.length_cons]
      have := vMatchLen_pos h
      omega
    · exact Nat.le_refl _

/-- Unfolding `subVersion` at a non-match. -/
theorem subVersion_skip {c : Char} {rest : List Char} (repl : List Char)
    (h : vMatchLen (c :: rest) = none) :
    subVersion repl (c :: rest) = c :: subVersion repl rest := by
  show subVersionGo repl (c :: rest).length (c :: rest) = _
  simp only [List.length_cons, subVersionGo, h]
  rfl

/-- Brace-free text is copied unchanged by the scanner. -/
theorem subVersion_append_left {s : List Char} (repl t : List Char)
    (hs : '\x7b' ∉ s) :
    subVersion repl (s ++ t) = s ++ subVersion repl t := by
  induction s with
  | nil => simp
  | cons c s' ih =>
    have hc : c ≠ '\x7b' := fun h => hs (h ▸ List.mem_cons_self c s')
    have hm : vMatchLen (c :: (s' ++ t)) = none := by
      cases hmm : vMatchLen (c :: (s' ++ t)) with
      | none => rfl
      | some n => exact absurd (vMatchLen_head hmm) hc
    rw [List.cons_append, subVersion_skip repl hm,
      ih (fun h => hs (List.mem_cons_of_mem _ h))]
    rfl

/-- `takeWhile` walks through text whose characters all satisfy `p`. -/
theorem takeWhile_append_all {p : Char → Bool} {l₁ : List Char} (l₂ : List Char)
    (h : ∀ c ∈ l₁, p c) :
    (l₁ ++ l₂).takeWhile p = l₁ ++ l₂.takeWhile p := by
  induction l₁ with
  | nil => simp
  | cons a t ih =>
    have ha : p a := h a (List.mem_cons_self a t)
    simp [List.takeWhile_cons, ha,
      ih (fun c hc => h c (List.mem_cons_of_mem _ hc))]

/-- The pattern matches at a rendered version declaration, and consumes
exactly the declaration. -/
theorem vMatchLen_vdecl {w : List Char} (t : List Char) (hw : w ≠ [])
    (hq : '"' ∉ w) :
    vMatchLen (patPre ++ (w ++ (patSuf ++ t))) =
      some (patPre.length + w.length + patSuf.length) := by
  have h1 : patPre.isPrefixOf (patPre ++ (w ++ (patSuf ++ t))) = true :=
    List.isPrefixOf_iff_prefix.mpr (List.prefix_append _ _)
  have h2 : (patPre ++ (w ++ (patSuf ++ t))).drop patPre.length =
      w ++ (patSuf ++ t) := List.drop_left _ _
  have h4 : (patSuf ++ t).takeWhile (fun c => (decide (c ≠ '"'))) = [] := by
    have hps : patSuf ++ t = '"' :: (" %\x7d".toList ++ t) := rfl
    rw [hps, List.takeWhile_cons]
    simp
  have h3 : (w ++ (patSuf ++ t)).takeWhile (fun c => (decide (c ≠ '"'))) = w := by
    rw [takeWhile_append_all _ (fun c hc => by
      simp only [decide_eq_true_eq]
      exact fun hcq => hq (hcq ▸ hc)), h4, List.append_nil]
  have h5 : (w ++ (patSuf ++ t)).drop w.length = patSuf ++ t :=
    List.drop_left _ _
  have h6 : patSuf.isPrefixOf (patSuf ++ t) = true :=
    List.isPrefixOf_iff_prefix.mpr (List.prefix_append _ _)
  have hlw : w.length ≠ 0 := fun h => hw (List.length_eq_zero.mp h)
  simp only [vMatchLen, h1, h2, h3, h5, h6, if_true, hlw, if_false]

/-- The scanner replaces a rendered version declaration and continues after
it. -/
theorem subVersion_vdecl (repl t : List Char) {w : List Char} (hw : w ≠ [])
    (hq : '"' ∉ w) :
    subVersion repl (patPre ++ w ++ patSuf ++ t) = repl ++ subVersion repl t := by
  have hm := vMatchLen_vdecl t hw hq
  rw [List.append_assoc, List.append_assoc]
  rw [subVersion_match repl hm]
  have hdrop : List.drop (patPre.length + w.length + patSuf.length)
      (patPre ++ (w ++ (patSuf ++ t))) = t := by
    rw [← List.append_assoc, ← List.append_assoc]
    refine List.drop_left' ?_
    simp only [List.length_append]
  rw [hdrop]

/-- Opening braces do not occur in placeholder tokens. -/
theorem pholder_no_brace : ∀ i : Fin 5, '\x7b' ∉ pholder i := by decide

/-- The version pass rewrites a well-formed template segmentwise: every
version declaration receives the bare version, everything else is copied. -/
theorem subVersion_render {bare : List Char} (segs : List Seg)
    (hwf : wf segs) :
    subVersion (patPre ++ bare ++ patSuf) (render segs) =
      render (mapVSub bare segs) := by
  induction segs with
  | nil => rfl
  | cons sg rest ih =>
    have hwfr : wf rest := fun x hx => hwf x (List.mem_cons_of_mem _ hx)
    have hwfs : wfSeg sg := hwf sg (List.mem_cons_self _ _)
    cases sg with
    | lit s =>
      have hr : render (Seg.lit s :: rest) = s ++ render rest := rfl
      rw [hr, subVersion_append_left _ _ hwfs.1, ih hwfr]
      rfl
    | ph i =>
      have hr : render (Seg.ph i :: rest) = pholder i ++ render rest := rfl
      rw [hr, subVersion_append_left _ _ (pholder_no_brace i), ih hwfr]
      rfl
    | vdecl w =>
      obtain ⟨hne, hqw, _, _, _⟩ := hwfs
      have hr : render (Seg.vdecl w :: rest) =
          (patPre ++ w ++ patSuf) ++ render rest := by
        simp [render, Seg.render]
      rw [hr, subVersion_vdecl _ _ hne hqw, ih hwfr]
      simp [mapVSub, render, Seg.render, vSubF, List.append_assoc]

/-! ## Lemmas about the literal replacement scanner -/

/-- The replacement result does not depend on the fuel, once sufficient. -/
theorem replaceAllGo_fuel {old : List Char} (new : List Char) (hne : old ≠ []) :
    ∀ (f₁ : Nat) (f₂ : Nat) (s : List Char), s.length ≤ f₁ → s.length ≤ f₂ →
      replaceAllGo old new f₁ s = replaceAllGo old new f₂ s := by
  intro f₁
  induction f₁ with
  | zero =>
    intro f₂ s h1 _
    have hs : s = [] := List.length_eq_zero.mp (Nat.le_zero.mp h1)
    subst hs
    cases f₂ <;> rfl
  | succ g ih =>
    intro f₂ s h1 h2
    cases s with
    | nil => cases f₂ <;> rfl
    | cons c rest =>
      cases f₂ with
      | zero => simp at h2
      | succ g₂ =>
        have hol : 0 < old.length := List.length_pos.mpr hne
        simp only [List.length_cons] at h1 h2
        simp only [replaceAllGo]
        split
        · refine congrArg (fun x => new ++ x) (ih g₂ _ ?_ ?_) <;>
            simp only [List.length_drop, List.length_cons] <;> omega
        · exact congrArg (fun x => c :: x) (ih g₂ _ (by omega) (by omega))

/-- `str.replace` at an occurrence of `old`. -/
theorem replaceAll_cons_pos {old : List Char} (new t : List Char)
    (hne : old ≠ []) :
    replaceAll old new (old ++ t) = new ++ replaceAll old new t := by
  cases old with
  | nil => exact absurd rfl hne
  | cons a old' =>
    show replaceAllGo (a :: old') new ((a :: old') ++ t).length
      ((a :: old') ++ t) = _
    simp only [List.cons_append, List.length_cons, replaceAllGo, List.append_eq]
    have hcond : ((a :: old').isPrefixOf (a :: (old' ++ t)) &&
        !(a :: old').isEmpty) = true := by
      have hp : (a :: old').isPrefixOf (a :: (old' ++ t)) = true :=
        List.isPrefixOf_iff_prefix.mpr ⟨t, by simp⟩
      simp [hp, List.isEmpty]
    rw [if_pos hcond]
    have hdrop : List.drop (old'.length + 1) (a :: (old' ++ t)) = t := by
      simp only [List.drop_succ_cons]
      exact List.drop_left _ _
    rw [hdrop]
    refine congrArg (fun x => new ++ x) ?_
    exact replaceAllGo_fuel new hne _ _ t (by simp [List.length_append]) le_rfl

/-- `str.replace` at a non-occurrence. -/
theorem replaceAll_cons_skip {old : List Char} {c : Char} {rest : List Char}
    (new : List Char) (h : ¬ old <+: (c :: rest)) :
    replaceAll old new (c :: rest) = c :: replaceAll old new rest := by
  show replaceAllGo old new (c :: rest).length (c :: rest) = _
  simp only [List.length_cons, replaceAllGo]
  have hcond : ¬ ((old.isPrefixOf (c :: rest) && !old.isEmpty) = true) := by
    intro hc
    rw [Bool.and_eq_true] at hc
    exact h (List.isPrefixOf_iff_prefix.mp hc.1)
  rw [if_neg hcond]
  rfl

/-- `str.replace` copies text that never exhibits `old`'s first character. -/
theorem replaceAll_append_head {p : List Char} (d t : List Char)
    {s : List Char} (hne : p ≠ []) (h : ∀ a ∈ s, p.head? ≠ some a) :
    replaceAll p d (s ++ t) = s ++ replaceAll p d t := by
  induction s with
  | nil => simp
  | cons a s' ih =>
    have hnp : ¬ p <+: (a :: (s' ++ t)) := by
      intro hpre
      cases p with
      | nil => exact hne rfl
      | cons b p' =>
        obtain ⟨r, hr⟩ := hpre
        simp only [List.cons_append] at hr
        have hb : b = a := (List.cons.injEq _ _ _ _ ▸ hr).1
        exact h a (List.mem_cons_self _ _) (by simp [List.head?, hb])
    rw [List.cons_append, replaceAll_cons_skip d hnp,
      ih (fun x hx => h x (List.mem_cons_of_mem _ hx))]
    rfl

/-- A strict-interior comparison failure rules out a prefix occurrence,
whatever text follows. -/
theorem pqMismatch_not_prefix {p q : List Char} (t : List Char)
    (h : pqMismatch p q = true) : ¬ p <+: (q ++ t) := by
  induction q generalizing p t with
  | nil => simp [pqMismatch] at h
  | cons b q' ih =>
    cases p with
    | nil => simp [pqMismatch] at h
    | cons a p' =>
      simp only [pqMismatch, Bool.or_eq_true, bne_iff_ne] at h
      intro hpre
      obtain ⟨r, hr⟩ := hpre
      simp only [List.cons_append] at hr
      have h1 : a = b := (List.cons.injEq _ _ _ _ ▸ hr).1
      have h2 : p' ++ r = q' ++ t := (List.cons.injEq _ _ _ _ ▸ hr).2
      cases h with
      | inl hab => exact hab h1
      | inr hrec => exact absurd ⟨r, h2⟩ (ih (p := p') (t := t) hrec)

/-- `str.replace` copies a stretch in which no occurrence of `old` can
start, whatever follows it. -/
theorem skipOKb_replaceAll {p q : List Char} (d t : List Char)
    (h : skipOKb p q = true) :
    replaceAll p d (q ++ t) = q ++ replaceAll p d t := by
  induction q with
  | nil => simp
  | cons b q' ih =>
    simp only [skipOKb, Bool.and_eq_true] at h
    have hnp : ¬ p <+: (b :: (q' ++ t)) := by
      have := pqMismatch_not_prefix t h.1
      simpa using this
    rw [List.cons_append, replaceAll_cons_skip d hnp, ih h.2]
    rfl

/-- Placeholder tokens are nonempty. -/
theorem pholder_ne_nil : ∀ i : Fin 5, pholder i ≠ [] := by decide

/-- Every placeholder token starts with `R`. -/
theorem pholder_head : ∀ i : Fin 5, (pholder i).head? = some 'R' := by decide

/-- `R` does not occur in the fixed pattern prefix. -/
theorem patPre_no_R : 'R' ∉ patPre := by decide

/-- `R` does not occur in the fixed pattern suffix. -/
theorem patSuf_no_R : 'R' ∉ patSuf := by decide

/-- Distinct placeholder tokens cannot start inside one another. -/
theorem pholder_skipOKb :
    ∀ i j : Fin 5, i ≠ j → skipOKb (pholder i) (pholder j) = true := by decide

/-- The placeholder map is injective. -/
theorem pholder_inj : ∀ i j : Fin 5, pholder i = pholder j → i = j := by decide

/-- One checksum pass rewrites a well-formed template segmentwise: every
segment equal to the replaced placeholder becomes the digest, everything
else is copied. -/
theorem replaceAll_render (i : Fin 5) (d : List Char) (segs : List Seg)
    (hwf : wf segs) :
    replaceAll (pholder i) d (render segs) =
      render (mapPh (pholder i) d segs) := by
  induction segs with
  | nil => rfl
  | cons sg rest ih =>
    have hwfr : wf rest := fun x hx => hwf x (List.mem_cons_of_mem _ hx)
    have hwfs : wfSeg sg := hwf sg (List.mem_cons_self _ _)
    cases sg with
    | lit s =>
      have hr : render (Seg.lit s :: rest) = s ++ render rest := rfl
      rw [hr, replaceAll_append_head d _ (pholder_ne_nil i)
        (fun a ha heq => hwfs.2 (by
          rw [pholder_head i] at heq
          have : 'R' = a := Option.some.injEq _ _ ▸ heq
          exact this ▸ ha)), ih hwfr]
      rfl
    | ph j =>
      by_cases hij : j = i
      · subst hij
        have hr : render (Seg.ph j :: rest) = pholder j ++ render rest := rfl
        rw [hr, replaceAll_cons_pos d _ (pholder_ne_nil j), ih hwfr]
        simp [mapPh, render, Seg.render, phF]
      · have hr : render (Seg.ph j :: rest) = pholder j ++ render rest := rfl
        have hsk := pholder_skipOKb i j (fun hh => hij hh.symm)
        rw [hr, skipOKb_replaceAll d _ hsk, ih hwfr]
        have hne : ¬ (pholder j = pholder i) := fun hh => hij (pholder_inj j i hh)
        simp [mapPh, render, Seg.render, phF, hne]
    | vdecl w =>
      obtain ⟨_, _, _, hRw, _⟩ := hwfs
      have hr : render (Seg.vdecl w :: rest) =
          (patPre ++ w ++ patSuf) ++ render rest := by
        simp [render, Seg.render]
      have hnoR : ∀ a ∈ patPre ++ w ++ patSuf, (pholder i).head? ≠ some a := by
        intro a ha heq
        rw [pholder_head i] at heq
        have haR : 'R' = a := Option.some.injEq _ _ ▸ heq
        subst haR
        rcases List.mem_append.mp ha with hin | hin
        · rcases List.mem_append.mp hin with hin2 | hin2
          · exact patPre_no_R hin2
          · exact hRw hin2
        · exact patSuf_no_R hin
      rw [hr, replaceAll_append_head d _ (pholder_ne_nil i) hnoR, ih hwfr]
      rfl

/-! ## Digests are hexadecimal text -/

/-- `hexChar` always produces a hexadecimal digit character. -/
theorem hexChar_mem (n : Nat) : hexChar n ∈ hexDigits := by
  unfold hexChar
  by_cases h : n < hexDigits.length
  · rw [List.getD_eq_getElem hexDigits '0' h]
    exact List.getElem_mem h
  · rw [List.getD_eq_default hexDigits '0' (Nat.le_of_not_lt h)]
    decide

/-- Every character of a hex digest string is a hexadecimal digit. -/
theorem mem_sha256Hex {m : List Nat} : ∀ c ∈ sha256Hex m, c ∈ hexDigits := by
  show ∀ c ∈ (sha256Bytes m).foldr (fun b acc => byteHex b ++ acc) [], _
  generalize sha256Bytes m = bs
  induction bs with
  | nil => intro c hc; simp at hc
  | cons b bs ih =>
    intro c hc
    simp only [List.foldr_cons] at hc
    rcases List.mem_append.mp hc with hin | hin
    · simp only [byteHex, List.mem_cons, List.not_mem_nil, or_false] at hin
      rcases hin with rfl | rfl
      · exact hexChar_mem _
      · exact hexChar_mem _
    · exact ih c hin

/-- Every character of a computed file checksum is a hexadecimal digit. -/
theorem calculate_sha256_hexdigits (content : List Nat) :
    ∀ c ∈ calculate_sha256 content, c ∈ hexDigits := by
  show ∀ c ∈ sha256Hex
    ((chunkList 4096 content).foldl HashCtx.update ⟨[]⟩).data, _
  exact mem_sha256Hex

/-- Hexadecimal text is an acceptable literal chunk. -/
theorem litOK_of_hex {d : List Char} (h : ∀ c ∈ d, c ∈ hexDigits) : litOK d := by
  constructor
  · intro hmem
    exact absurd (h _ hmem) (by decide)
  · intro hmem
    exact absurd (h _ hmem) (by decide)

/-! ## The checksum mapping -/

/-- Accumulating `foldl` over optional results is `filterMap`. -/
theorem foldl_collect {α β : Type} (f : α → Option β) :
    ∀ (L : List α) (acc : List β),
      L.foldl (fun a x => a ++ (f x).toList) acc = acc ++ L.filterMap f := by
  intro L
  induction L with
  | nil => intro acc; simp
  | cons x L ih =>
    intro acc
    simp only [List.foldl_cons, List.filterMap_cons]
    cases hf : f x with
    | none => simp only [hf, Option.toList_none, List.append_nil]; exact ih acc
    | some y =>
      simp only [hf, Option.toList_some]
      rw [ih (acc ++ [y])]
      simp

/-- The checksum mapping, as a `filterMap` over the fixed table. -/
theorem buildChecksums_eq (dir : Dir) :
    buildChecksums dir = filesTable.filterMap (fun pr =>
      (lookupFile dir pr.1).map (fun c => (pr.2, calculate_sha256 c))) := by
  have hfun : (fun (acc : List (List Char × List Char))
      (pr : List Char × List Char) =>
      match lookupFile dir pr.1 with
      | some content => acc ++ [(pr.2, calculate_sha256 content)]
      | none => acc) = (fun acc pr =>
      acc ++ ((lookupFile dir pr.1).map
        (fun c => (pr.2, calculate_sha256 c))).toList) := by
    funext acc pr
    cases lookupFile dir pr.1 with
    | none => simp
    | some content => rfl
  unfold buildChecksums
  rw [hfun]
  exact (foldl_collect (fun (pr : List Char × List Char) =>
    (lookupFile dir pr.1).map (fun c => (pr.2, calculate_sha256 c)))
    filesTable []).trans (List.nil_append _)

/-- Every table entry is the pair of its file name and placeholder. -/
theorem filesTable_mem_shape :
    ∀ x ∈ filesTable, ∃ i : Fin 5, x = (fname i, pholder i) := by decide

/-- The indexed pairs are in the table. -/
theorem filesTable_pairs_mem :
    ∀ i : Fin 5, (fname i, pholder i) ∈ filesTable := by decide

/-- Shape of the entries of the checksum mapping: placeholder of a present
file, paired with the digest of that file's content. -/
theorem buildChecksums_mem {dir : Dir} :
    ∀ pr ∈ buildChecksums dir,
      ∃ i : Fin 5, pr.1 = pholder i ∧
        ∃ content, lookupFile dir (fname i) = some content ∧
          pr.2 = calculate_sha256 content := by
  rw [buildChecksums_eq]
  intro pr hpr
  obtain ⟨x, hx, hfx⟩ := List.mem_filterMap.mp hpr
  obtain ⟨i, rfl⟩ := filesTable_mem_shape x hx
  cases hl : lookupFile dir (fname i) with
  | none => rw [hl] at hfx; simp at hfx
  | some content =>
    rw [hl] at hfx
    simp only [Option.map_some'] at hfx
    have hpr2 : pr = (pholder i, calculate_sha256 content) :=
      (Option.some.injEq _ _ ▸ hfx).symm
    subst hpr2
    exact ⟨i, rfl, content, hl, rfl⟩

/-- A present file contributes its placeholder/digest pair. -/
theorem buildChecksums_present {dir : Dir} {i : Fin 5} {content : List Nat}
    (h : lookupFile dir (fname i) = some content) :
    (pholder i, calculate_sha256 content) ∈ buildChecksums dir := by
  rw [buildChecksums_eq]
  apply List.mem_filterMap.mpr
  refine ⟨(fname i, pholder i), filesTable_pairs_mem i, ?_⟩
  rw [h]
  rfl

/-! ## The update operation on segment decompositions -/

/-- The version pass preserves well-formedness. -/
theorem wf_mapVSub {bare : List Char} {segs : List Seg} (hwf : wf segs)
    (hb : goodBare bare) : wf (mapVSub bare segs) := by
  intro sg hsg
  obtain ⟨x, hx, rfl⟩ := List.mem_map.mp hsg
  have hw := hwf x hx
  cases x with
  | lit s => exact hw
  | ph i => exact hw
  | vdecl w => exact hb

/-- A checksum pass preserves well-formedness when the digest is an
acceptable literal. -/
theorem wf_mapPh {p d : List Char} {segs : List Seg} (hwf : wf segs)
    (hd : litOK d) : wf (mapPh p d segs) := by
  intro sg hsg
  obtain ⟨x, hx, rfl⟩ := List.mem_map.mp hsg
  have hw := hwf x hx
  cases x with
  | lit s => exact hw
  | vdecl w => exact hw
  | ph j =>
    by_cases hpj : pholder j = p
    · simp only [phF, if_pos hpj]
      exact hd
    · simp only [phF, if_neg hpj]
      trivial

/-- All checksum passes together rewrite a well-formed template
segmentwise. -/
theorem applyChecksums_render :
    ∀ (cs : List (List Char × List Char)) (segs : List Seg), wf segs →
      (∀ pr ∈ cs, (∃ i : Fin 5, pr.1 = pholder i) ∧
        (∀ c ∈ pr.2, c ∈ hexDigits)) →
      applyChecksums cs (render segs) =
        render (cs.foldl (fun sgs pr => mapPh pr.1 pr.2 sgs) segs) := by
  intro cs
  induction cs with
  | nil => intro segs _ _; rfl
  | cons pr cs' ih =>
    intro segs hwf hsh
    obtain ⟨⟨i, hi⟩, hhex⟩ := hsh pr (List.mem_cons_self _ _)
    show applyChecksums cs' (replaceAll pr.1 pr.2 (render segs)) =
      render (cs'.foldl (fun sgs q => mapPh q.1 q.2 sgs) (mapPh pr.1 pr.2 segs))
    rw [hi, replaceAll_render i pr.2 segs hwf,
      ih _ (wf_mapPh hwf (litOK_of_hex hhex))
        (fun q hq => hsh q (List.mem_cons_of_mem _ hq))]

/-- Master theorem: on a well-formed template, the update operation acts
segmentwise. -/
theorem updateContent_render (version : List Char) (dir : Dir)
    (segs : List Seg) (hwf : wf segs) (hb : goodBare (normalize version).1) :
    updateContent version dir (render segs) =
      render (segUpdate version dir segs) := by
  show applyChecksums (buildChecksums dir)
      (subVersion (patPre ++ (normalize version).1 ++ patSuf) (render segs)) = _
  rw [subVersion_render segs hwf]
  exact applyChecksums_render _ _ (wf_mapVSub hwf hb) (fun pr hpr => by
    obtain ⟨i, hpi, c, _, hd⟩ := buildChecksums_mem pr hpr
    exact ⟨⟨i, hpi⟩, hd ▸ calculate_sha256_hexdigits c⟩)

/-- A fold of elementwise maps is one map of the folded transform. -/
theorem foldl_map_fold {γ α : Type _} (g : γ → α → α) :
    ∀ (fs : List γ) (l : List α),
      fs.foldl (fun acc c => acc.map (g c)) l =
        l.map (fun a => fs.foldl (fun x c => g c x) a) := by
  intro fs
  induction fs with
  | nil => intro l; simp
  | cons c fs' ih =>
    intro l
    simp only [List.foldl_cons]
    rw [ih (l.map (g c)), List.map_map]
    rfl

/-- The segment-level update is an elementwise map. -/
theorem segUpdate_eq_map (version : List Char) (dir : Dir) (segs : List Seg) :
    segUpdate version dir segs = segs.map (segF version dir) := by
  show (buildChecksums dir).foldl (fun sgs pr => mapPh pr.1 pr.2 sgs)
      (mapVSub (normalize version).1 segs) = _
  have h := foldl_map_fold
    (fun (pr : List Char × List Char) => phF pr.1 pr.2)
    (buildChecksums dir) (segs.map (vSubF (normalize version).1))
  exact h.trans (by rw [List.map_map]; rfl)

/-- Checksum passes do not touch literal segments. -/
theorem foldl_phF_lit (s : List Char) :
    ∀ cs : List (List Char × List Char),
      cs.foldl (fun sg pr => phF pr.1 pr.2 sg) (Seg.lit s) = Seg.lit s := by
  intro cs
  induction cs with
  | nil => rfl
  | cons pr cs' ih => exact ih

/-- Checksum passes do not touch version-declaration segments. -/
theorem foldl_phF_vdecl (w : List Char) :
    ∀ cs : List (List Char × List Char),
      cs.foldl (fun sg pr => phF pr.1 pr.2 sg) (Seg.vdecl w) = Seg.vdecl w := by
  intro cs
  induction cs with
  | nil => rfl
  | cons pr cs' ih => exact ih

/-- The update fixes literal segments. -/
theorem segF_lit (version : List Char) (dir : Dir) (s : List Char) :
    segF version dir (Seg.lit s) = Seg.lit s := foldl_phF_lit s _

/-- The update rewrites every version declaration to the bare version. -/
theorem segF_vdecl (version : List Char) (dir : Dir) (w : List Char) :
    segF version dir (Seg.vdecl w) = Seg.vdecl (normalize version).1 :=
  foldl_phF_vdecl _ _

/-- A placeholder segment either survives or becomes a digest literal from
the checksum list. -/
theorem foldl_phF_ph (i : Fin 5) :
    ∀ cs : List (List Char × List Char),
      cs.foldl (fun sg pr => phF pr.1 pr.2 sg) (Seg.ph i) = Seg.ph i ∨
      ∃ pr ∈ cs,
        cs.foldl (fun sg pr => phF pr.1 pr.2 sg) (Seg.ph i) = Seg.lit pr.2 := by
  intro cs
  induction cs with
  | nil => exact Or.inl rfl
  | cons pr cs' ih =>
    by_cases hpi : pholder i = pr.1
    · refine Or.inr ⟨pr, List.mem_cons_self _ _, ?_⟩
      show cs'.foldl _ (phF pr.1 pr.2 (Seg.ph i)) = _
      rw [show phF pr.1 pr.2 (Seg.ph i) = Seg.lit pr.2 by
        simp [phF, if_pos hpi]]
      exact foldl_phF_lit pr.2 cs'
    · have hstep : phF pr.1 pr.2 (Seg.ph i) = Seg.ph i := by
        simp [phF, if_neg hpi]
      show cs'.foldl _ (phF pr.1 pr.2 (Seg.ph i)) = Seg.ph i ∨ _
      rw [hstep]
      rcases ih with h | ⟨q, hq, hqe⟩
      · exact Or.inl h
      · refine Or.inr ⟨q, List.mem_cons_of_mem _ hq, ?_⟩
        show cs'.foldl _ (phF pr.1 pr.2 (Seg.ph i)) = _
        rw [hstep]
        exact hqe

/-- If some checksum pass targets placeholder `i`, the placeholder segment
ends as a digest literal. -/
theorem foldl_phF_hit (i : Fin 5) :
    ∀ cs : List (List Char × List Char),
      (∃ pr ∈ cs, pr.1 = pholder i) →
      ∃ pr ∈ cs,
        cs.foldl (fun sg pr => phF pr.1 pr.2 sg) (Seg.ph i) = Seg.lit pr.2 := by
  intro cs
  induction cs with
  | nil => rintro ⟨pr, hpr, _⟩; simp at hpr
  | cons pr cs' ih =>
    rintro ⟨q, hq, hq1⟩
    by_cases hpi : pholder i = pr.1
    · refine ⟨pr, List.mem_cons_self _ _, ?_⟩
      show cs'.foldl _ (phF pr.1 pr.2 (Seg.ph i)) = _
      rw [show phF pr.1 pr.2 (Seg.ph i) = Seg.lit pr.2 by
        simp [phF, if_pos hpi]]
      exact foldl_phF_lit pr.2 cs'
    · have hstep : phF pr.1 pr.2 (Seg.ph i) = Seg.ph i := by
        simp [phF, if_neg hpi]
      have hq' : q ∈ cs' := by
        rcases List.mem_cons.mp hq with rfl | h
        · exact absurd hq1.symm hpi
        · exact h
      obtain ⟨r, hr, hre⟩ := ih ⟨q, hq', hq1⟩
      refine ⟨r, List.mem_cons_of_mem _ hr, ?_⟩
      show cs'.foldl _ (phF pr.1 pr.2 (Seg.ph i)) = _
      rw [hstep]
      exact hre

/-- A placeholder of a file absent from the release directory is fixed by
the update. -/
theorem segF_ph_absent {dir : Dir} {i : Fin 5} (version : List Char)
    (h : lookupFile dir (fname i) = none) :
    segF version dir (Seg.ph i) = Seg.ph i := by
  have hgen : ∀ cs : List (List Char × List Char),
      (∀ pr ∈ cs, pr.1 ≠ pholder i) →
      cs.foldl (fun sg pr => phF pr.1 pr.2 sg) (Seg.ph i) = Seg.ph i := by
    intro cs
    induction cs with
    | nil => intro _; rfl
    | cons pr cs' ih =>
      intro hcs
      have h1 : ¬ (pholder i = pr.1) :=
        fun hh => hcs pr (List.mem_cons_self _ _) hh.symm
      show cs'.foldl _ (phF pr.1 pr.2 (Seg.ph i)) = _
      rw [show phF pr.1 pr.2 (Seg.ph i) = Seg.ph i by simp [phF, if_neg h1]]
      exact ih (fun q hq => hcs q (List.mem_cons_of_mem _ hq))
  apply hgen
  intro pr hpr hpp
  obtain ⟨j, hj, c, hlc, _⟩ := buildChecksums_mem pr hpr
  have hji : j = i := pholder_inj j i (hj ▸ hpp)
  rw [hji] at hlc
  rw [hlc] at h
  exact Option.noConfusion h

/-- A placeholder of a present file becomes a hex digest literal. -/
theorem segF_ph_present {dir : Dir} {i : Fin 5} {content : List Nat}
    (version : List Char) (h : lookupFile dir (fname i) = some content) :
    ∃ d, segF version dir (Seg.ph i) = Seg.lit d ∧ ∀ c ∈ d, c ∈ hexDigits := by
  have hmem := buildChecksums_present h
  obtain ⟨pr, hpr, hre⟩ := foldl_phF_hit i (buildChecksums dir)
    ⟨(pholder i, calculate_sha256 content), hmem, rfl⟩
  refine ⟨pr.2, hre, ?_⟩
  obtain ⟨j, _, c2, _, hd⟩ := buildChecksums_mem pr hpr
  exact hd ▸ calculate_sha256_hexdigits c2

/-- The only segments the update can turn into a placeholder segment are
that same placeholder segment. -/
theorem segF_result_ph {version : List Char} {dir : Dir} {sg : Seg}
    {j : Fin 5} (h : segF version dir sg = Seg.ph j) : sg = Seg.ph j := by
  cases sg with
  | lit s => rw [segF_lit] at h; exact h
  | vdecl w => rw [segF_vdecl] at h; exact Seg.noConfusion h
  | ph k =>
    rcases foldl_phF_ph k (buildChecksums dir) with he | ⟨pr, _, he⟩
    · have : segF version dir (Seg.ph k) = Seg.ph k := he
      rw [this] at h
      exact h
    · have : segF version dir (Seg.ph k) = Seg.lit pr.2 := he
      rw [this] at h
      exact Seg.noConfusion h

/-- The update preserves well-formedness of each segment. -/
theorem segF_wfSeg {version : List Char} {dir : Dir} {sg : Seg}
    (hw : wfSeg sg) (hb : goodBare (normalize version).1) :
    wfSeg (segF version dir sg) := by
  cases sg with
  | lit s => rw [segF_lit]; exact hw
  | vdecl w => rw [segF_vdecl]; exact hb
  | ph k =>
    rcases foldl_phF_ph k (buildChecksums dir) with he | ⟨pr, hpr, he⟩
    · have hee : segF version dir (Seg.ph k) = Seg.ph k := he
      rw [hee]
      trivial
    · have hee : segF version dir (Seg.ph k) = Seg.lit pr.2 := he
      rw [hee]
      obtain ⟨j, _, c2, _, hd⟩ := buildChecksums_mem pr hpr
      exact litOK_of_hex (hd ▸ calculate_sha256_hexdigits c2)

/-! ## Occurrence freedom -/

/-- An infix occurrence cannot start in a stretch missing the first
character of the pattern. -/
theorem infix_append_right_of_head {p y : List Char} {x : List Char}
    (hne : p ≠ []) (h : ∀ a ∈ x, p.head? ≠ some a) (hinf : p <:+: x ++ y) :
    p <:+: y := by
  induction x with
  | nil => simpa using hinf
  | cons a x' ihx =>
    rw [List.cons_append] at hinf
    rcases List.infix_cons_iff.mp hinf with hpre | hrest
    · cases p with
      | nil => exact absurd rfl hne
      | cons b p' =>
        obtain ⟨r, hr⟩ := hpre
        simp only [List.cons_append] at hr
        have hb : b = a := (List.cons.injEq _ _ _ _ ▸ hr).1
        exact absurd (by simp [List.head?, hb])
          (h a (List.mem_cons_self _ _))
    · exact ihx (fun q hq => h q (List.mem_cons_of_mem _ hq)) hrest

/-- An infix occurrence cannot start inside a stretch in which the pattern
always mismatches strictly inside. -/
theorem infix_append_right_of_skipOKb {p y : List Char} {q : List Char}
    (hsk : skipOKb p q = true) (hinf : p <:+: q ++ y) : p <:+: y := by
  induction q with
  | nil => simpa using hinf
  | cons b q' ihq =>
    simp only [skipOKb, Bool.and_eq_true] at hsk
    rw [List.cons_append] at hinf
    rcases List.infix_cons_iff.mp hinf with hpre | hrest
    · have := pqMismatch_not_prefix y hsk.1
      exact absurd hpre (by simpa using this)
    · exact ihq hsk.2 hrest

/-- A placeholder does not occur in a rendered well-formed template without
a matching placeholder segment. -/
theorem pholder_not_infix_render (i : Fin 5) :
    ∀ segs : List Seg, wf segs →
      (∀ j, Seg.ph j ∈ segs → pholder j ≠ pholder i) →
      ¬ (pholder i <:+: render segs) := by
  intro segs
  induction segs with
  | nil =>
    intro _ _ hinf
    exact pholder_ne_nil i (List.infix_nil.mp hinf)
  | cons sg rest ih =>
    intro hwf hno hinf
    have hwfr : wf rest := fun x hx => hwf x (List.mem_cons_of_mem _ hx)
    have hwfs : wfSeg sg := hwf sg (List.mem_cons_self _ _)
    have hnor : ∀ j, Seg.ph j ∈ rest → pholder j ≠ pholder i :=
      fun j hj => hno j (List.mem_cons_of_mem _ hj)
    refine ih hwfr hnor ?_
    cases sg with
    | lit s =>
      refine infix_append_right_of_head (pholder_ne_nil i) ?_ hinf
      intro a ha heq
      rw [pholder_head i] at heq
      have haR : 'R' = a := Option.some.injEq _ _ ▸ heq
      exact hwfs.2 (haR ▸ ha)
    | vdecl w =>
      obtain ⟨_, _, _, hRw, _⟩ := hwfs
      have hr : render (Seg.vdecl w :: rest) =
          (patPre ++ w ++ patSuf) ++ render rest := by
        simp [render, Seg.render]
      rw [hr] at hinf
      refine infix_append_right_of_head (pholder_ne_nil i) ?_ hinf
      intro a ha heq
      rw [pholder_head i] at heq
      have haR : 'R' = a := Option.some.injEq _ _ ▸ heq
      subst haR
      rcases List.mem_append.mp ha with hin | hin
      · rcases List.mem_append.mp hin with hin2 | hin2
        · exact patPre_no_R hin2
        · exact hRw hin2
      · exact patSuf_no_R hin
    | ph j =>
      have hji : pholder j ≠ pholder i := hno j (List.mem_cons_self _ _)
      have hjne : i ≠ j := fun hh => hji (hh ▸ rfl)
      exact infix_append_right_of_skipOKb (pholder_skipOKb i j hjne) hinf

/-! ## Remaining helper lemmas -/

/-- The bare form is the input with a single leading `v` stripped. -/
theorem normalize_fst (version : List Char) :
    (normalize version).1 =
      if version.head? = some 'v' then version.drop 1 else version := by
  unfold normalize
  split <;> rfl

/-- The tagged form always carries the `v` marker. -/
theorem normalize_snd (version : List Char) :
    (normalize version).2 =
      if version.head? = some 'v' then version else 'v' :: version := by
  unfold normalize
  split <;> rfl

/-- Rendering distributes over concatenation of decompositions. -/
theorem render_append : ∀ x y : List Seg, render (x ++ y) = render x ++ render y := by
  intro x y
  induction x with
  | nil => rfl
  | cons sg x' ih =>
    show Seg.render sg ++ render (x' ++ y) = (Seg.render sg ++ render x') ++ render y
    rw [ih, List.append_assoc]

/-- The per-segment update transform is idempotent. -/
theorem segF_idem (version : List Char) (dir : Dir) (sg : Seg) :
    segF version dir (segF version dir sg) = segF version dir sg := by
  cases sg with
  | lit s => rw [segF_lit, segF_lit]
  | vdecl w => rw [segF_vdecl, segF_vdecl]
  | ph k =>
    rcases foldl_phF_ph k (buildChecksums dir) with he | ⟨pr, _, he⟩
    · have hee : segF version dir (Seg.ph k) = Seg.ph k := he
      rw [hee, hee]
    · have hee : segF version dir (Seg.ph k) = Seg.lit pr.2 := he
      rw [hee, segF_lit]

/-- Joining the chunks recovers the original list. -/
theorem chunkGo_join {α : Type} {n : Nat} (hn : 0 < n) :
    ∀ (fuel : Nat) (l : List α), l.length ≤ fuel →
      (chunkGo n fuel l).flatten = l := by
  intro fuel
  induction fuel with
  | zero =>
    intro l hl
    have : l = [] := List.length_eq_zero.mp (Nat.le_zero.mp hl)
    subst this
    rfl
  | succ f ih =>
    intro l hl
    cases l with
    | nil => rfl
    | cons a l' =>
      show (((a :: l').take n) :: chunkGo n f ((a :: l').drop n)).flatten = _
      rw [List.flatten_cons, ih _ (by
        simp only [List.length_drop, List.length_cons]
        simp only [List.length_cons] at hl
        omega)]
      exact List.take_append_drop n (a :: l')

/-- Feeding blocks to the hash accumulator concatenates their bytes. -/
theorem foldl_update_data (L : List (List Nat)) :
    ∀ ctx : HashCtx, (L.foldl HashCtx.update ctx).data = ctx.data ++ L.flatten := by
  induction L with
  | nil => intro ctx; simp
  | cons b L ih =>
    intro ctx
    show ((L.foldl HashCtx.update (HashCtx.update ctx b))).data = _
    rw [ih, List.flatten_cons]
    show ctx.data ++ b ++ L.flatten = _
    rw [List.append_assoc]

/-! ## The claims -/

/-- C8: `calculate_sha256` yields the lowercase hexadecimal SHA-256 digest;
in particular the digest of a zero-length file is the well-known
`e3b0c4...` value. -/
theorem claim8_digest_correctness :
    (∀ content : List Nat, ∀ c ∈ calculate_sha256 content, c ∈ hexDigits) ∧
    calculate_sha256 [] =
      "e3b0c44298fc1c149afbf4c8996fb92427ae41e4649b934ca495991b7852b855".toList := by
  constructor
  · exact fun content => calculate_sha256_hexdigits content
  · decide

/-- Witness for C8 at concrete inputs. -/
theorem claim8_witness : 'e' ∈ calculate_sha256 [] ∧ 'e' ∈ hexDigits :=
  ⟨by decide, claim8_digest_correctness.1 [] 'e' (by decide)⟩

/-- C9: the chunked digest computation (4096-byte blocks fed to the
accumulator) equals the one-shot SHA-256 hex digest, and the result is the
same for any splitting of the content into chunks. -/
theorem claim9_chunked_equals_oneshot (content : List Nat) :
    calculate_sha256 content = sha256Hex content ∧
    ∀ pieces : List (List Nat), pieces.flatten = content →
      (pieces.foldl HashCtx.update ⟨[]⟩).hexdigest = sha256Hex content := by
  constructor
  · show sha256Hex ((chunkList 4096 content).foldl HashCtx.update ⟨[]⟩).data = _
    rw [foldl_update_data]
    show sha256Hex ([] ++ (chunkGo 4096 content.length content).flatten) = _
    rw [List.nil_append,
      chunkGo_join (by omega) content.length content (Nat.le_refl _)]
  · intro pieces hp
    show sha256Hex (pieces.foldl HashCtx.update ⟨[]⟩).data = _
    rw [foldl_update_data, hp]
    rfl

/-- Witness for C9: a concrete two-chunk split. -/
theorem claim9_witness :
    (([[1], [2, 3]] : List (List Nat)).foldl HashCtx.update ⟨[]⟩).hexdigest =
      sha256Hex [1, 2, 3] :=
  (claim9_chunked_equals_oneshot [1, 2, 3]).2 [[1], [2, 3]] (by decide)

/-- C6: if the release-directory argument does not name a directory, `main`
exits with status 1 and the template is neither read nor written; otherwise
the update runs, the template is read and rewritten, and the exit status
is 0. -/
theorem claim6_entry_point (version : List Char) (w : World) :
    (w.dirIsDir = false → mainRun version w = (1, w.template, [])) ∧
    (w.dirIsDir = true →
      mainRun version w =
        (0, updateContent version w.dirFiles w.template,
          [FsEvent.readTemplate,
           FsEvent.writeTemplate
             (updateContent version w.dirFiles w.template)])) := by
  constructor
  · intro h
    simp [mainRun, h]
  · intro h
    simp [mainRun, update_meta_yaml, h]

/-- Witness for C6: a nonexistent release directory. -/
theorem claim6_witness :
    mainRun "1.0".toList ⟨false, [], "abc".toList⟩ =
      (1, "abc".toList, []) :=
  (claim6_entry_point "1.0".toList ⟨false, [], "abc".toList⟩).1 rfl

/-- C7: an absent archive file is non-fatal: a warning is printed and no
digest is recorded for its placeholder, while every present file still gets
its digest computed, recorded and logged. -/
theorem claim7_missing_archive_nonfatal (version dirPath : List Char)
    (dir : Dir) :
    ∀ pr ∈ filesTable,
      (lookupFile dir pr.1 = none →
        warnLine (joinPath dirPath pr.1) ∈ updateLogs version dirPath dir ∧
        ∀ q ∈ buildChecksums dir, q.1 ≠ pr.2) ∧
      (∀ content, lookupFile dir pr.1 = some content →
        (pr.2, calculate_sha256 content) ∈ buildChecksums dir ∧
        checksumLine pr.1 (calculate_sha256 content) ∈
          updateLogs version dirPath dir) := by
  intro pr hpr
  constructor
  · intro hnone
    constructor
    · apply List.mem_append_left
      apply List.mem_map.mpr
      exact ⟨pr, hpr, by rw [hnone]⟩
    · intro q hq hq1
      obtain ⟨i, hqi, c, hlc, _⟩ := buildChecksums_mem q hq
      obtain ⟨j, rfl⟩ := filesTable_mem_shape pr hpr
      have hij : i = j := pholder_inj i j (hqi.symm.trans hq1)
      rw [hij] at hlc
      rw [hlc] at hnone
      exact Option.noConfusion hnone
  · intro content hsome
    constructor
    · obtain ⟨j, rfl⟩ := filesTable_mem_shape pr hpr
      exact buildChecksums_present hsome
    · apply List.mem_append_left
      apply List.mem_map.mpr
      exact ⟨pr, hpr, by rw [hsome]⟩

/-- Witness for C7: an empty release directory misses the first archive. -/
theorem claim7_witness :
    warnLine (joinPath "rel".toList (fname 0)) ∈
      updateLogs "1.0".toList "rel".toList [] ∧
    ∀ q ∈ buildChecksums ([] : Dir), q.1 ≠ pholder 0 :=
  (claim7_missing_archive_nonfatal "1.0".toList "rel".toList []
    (fname 0, pholder 0) (filesTable_pairs_mem 0)).1 rfl

/-- C4 counterexample: for input `v3.0.0` the log output references the
bare form `3.0.0` and never the tagged form `v3.0.0` — the code prints
`version_num`, not `version`. -/
theorem claim4_counterexample :
    (∃ line ∈ updateLogs "v3.0.0".toList "rel".toList [],
      "3.0.0".toList <:+: line) ∧
    ∀ line ∈ updateLogs "v3.0.0".toList "rel".toList [],
      ¬ ("v3.0.0".toList <:+: line) := by
  decide

/-- C4 amended: the log output references the bare form of the version (the
final summary line interpolates `version_num`); the tagged form is computed
but unused. -/
theorem claim4_amended (version dirPath : List Char) (dir : Dir) :
    finalLine (normalize version).1 ∈ updateLogs version dirPath dir ∧
    (normalize version).1 <:+: finalLine (normalize version).1 := by
  constructor
  · apply List.mem_append_right
    exact List.mem_singleton.mpr rfl
  · exact ⟨"\nUpdated scripts/conda/meta.yaml with version ".toList,
      " and new checksums.".toList, rfl⟩

/-- C1 counterexample: a version string that is itself a placeholder token
is substituted into the version line and then replaced by a digest, so the
final version line is not `{% set version = "<bare>" %}`. -/
theorem claim1_counterexample :
    updateContent "REPLACE_WITH_ACTUAL_CHECKSUM_WINDOWS".toList
      [("cloudworkstation-windows-amd64.zip".toList, [1])]
      (patPre ++ "1.0".toList ++ patSuf) ≠
    patPre ++ "REPLACE_WITH_ACTUAL_CHECKSUM_WINDOWS".toList ++ patSuf := by
  decide

/-- C1 amended: for every version whose bare form is nonempty and free of
quote, brace, `R` and backslash characters, and every well-formed template,
the version-declaration line after update is exactly
`{% set version = "<bare>" %}` with the bare form being the input with a
single leading `v` stripped. -/
theorem claim1_version_line (version : List Char) (dir : Dir)
    (a b : List Seg) (w : List Char)
    (hwf : wf (a ++ Seg.vdecl w :: b))
    (hb : goodBare (normalize version).1) :
    updateContent version dir (render (a ++ Seg.vdecl w :: b)) =
      render (a.map (segF version dir)) ++
        (patPre ++ (normalize version).1 ++ patSuf) ++
        render (b.map (segF version dir)) ∧
    (normalize version).1 =
      (if version.head? = some 'v' then version.drop 1 else version) := by
  refine ⟨?_, normalize_fst version⟩
  rw [updateContent_render version dir _ hwf hb, segUpdate_eq_map,
    List.map_append, List.map_cons, segF_vdecl, render_append]
  simp [render, Seg.render, List.append_assoc]

/-- Witness for C1 at a concrete template and version `v3.0.0`. -/
theorem claim1_witness :
    updateContent "v3.0.0".toList []
      (render ([Seg.lit "name: x\n".toList] ++
        Seg.vdecl "1.0".toList :: [Seg.lit "\nrest".toList])) =
      render ([Seg.lit "name: x\n".toList].map (segF "v3.0.0".toList [])) ++
        (patPre ++ (normalize "v3.0.0".toList).1 ++ patSuf) ++
        render ([Seg.lit "\nrest".toList].map (segF "v3.0.0".toList [])) :=
  (claim1_version_line "v3.0.0".toList [] [Seg.lit "name: x\n".toList]
    [Seg.lit "\nrest".toList] "1.0".toList (by decide) (by decide)).1

/-- C3 counterexample: with two version declarations in the template, both
are replaced — `re.sub` without a count replaces every occurrence, not just
the first. -/
theorem claim3_counterexample :
    updateContent "9.9".toList []
      (render [Seg.vdecl "1.0".toList, Seg.lit " ".toList,
        Seg.vdecl "2.0".toList]) ≠
      render [Seg.vdecl "9.9".toList, Seg.lit " ".toList,
        Seg.vdecl "2.0".toList] ∧
    updateContent "9.9".toList []
      (render [Seg.vdecl "1.0".toList, Seg.lit " ".toList,
        Seg.vdecl "2.0".toList]) =
      render [Seg.vdecl "9.9".toList, Seg.lit " ".toList,
        Seg.vdecl "9.9".toList] := by
  decide

/-- C3 amended: the update replaces every occurrence of the
version-declaration pattern with the bare version. -/
theorem claim3_all_occurrences (version : List Char) (dir : Dir)
    (segs : List Seg) (hwf : wf segs)
    (hb : goodBare (normalize version).1) :
    updateContent version dir (render segs) =
      render (segs.map (segF version dir)) ∧
    ∀ w, segF version dir (Seg.vdecl w) = Seg.vdecl (normalize version).1 := by
  refine ⟨?_, fun w => segF_vdecl version dir w⟩
  rw [updateContent_render version dir segs hwf hb, segUpdate_eq_map]

/-- Witness for C3 on a two-declaration template. -/
theorem claim3_witness :
    updateContent "9.9".toList []
      (render [Seg.vdecl "1.0".toList, Seg.lit " ".toList,
        Seg.vdecl "2.0".toList]) =
      render ([Seg.vdecl "1.0".toList, Seg.lit " ".toList,
        Seg.vdecl "2.0".toList].map (segF "9.9".toList [])) :=
  (claim3_all_occurrences "9.9".toList []
    [Seg.vdecl "1.0".toList, Seg.lit " ".toList, Seg.vdecl "2.0".toList]
    (by decide) (by decide)).1

/-- C5 counterexample: a version containing quote and brace characters makes
the second run substitute twice, so update is not idempotent on arbitrary
inputs. -/
theorem claim5_counterexample :
    updateContent "1\" %\x7d\x7b% set version = \"2".toList []
      (updateContent "1\" %\x7d\x7b% set version = \"2".toList []
        "\x7b% set version = \"1.0\" %\x7d".toList) ≠
    updateContent "1\" %\x7d\x7b% set version = \"2".toList []
      "\x7b% set version = \"1.0\" %\x7d".toList := by
  decide

/-- C5 amended: on a well-formed template and a version whose bare form is
nonempty and free of quote, brace, `R` and backslash characters, running the
update twice gives a byte-identical result to running it once. -/
theorem claim5_idempotent (version : List Char) (dir : Dir)
    (segs : List Seg) (hwf : wf segs)
    (hb : goodBare (normalize version).1) :
    updateContent version dir (updateContent version dir (render segs)) =
      updateContent version dir (render segs) := by
  rw [updateContent_render version dir segs hwf hb, segUpdate_eq_map]
  have hwf' : wf (segs.map (segF version dir)) := by
    intro sg hsg
    obtain ⟨x, hx, rfl⟩ := List.mem_map.mp hsg
    exact segF_wfSeg (hwf x hx) hb
  rw [updateContent_render version dir _ hwf' hb, segUpdate_eq_map,
    List.map_map]
  congr 1
  apply List.map_congr_left
  intro sg _
  exact segF_idem version dir sg

/-- Witness for C5 at a concrete template and version `v3.0.0`. -/
theorem claim5_witness :
    updateContent "v3.0.0".toList []
      (updateContent "v3.0.0".toList []
        (render [Seg.vdecl "1.0".toList])) =
      updateContent "v3.0.0".toList [] (render [Seg.vdecl "1.0".toList]) :=
  claim5_idempotent "v3.0.0".toList [] [Seg.vdecl "1.0".toList]
    (by decide) (by decide)

/-- C10: frame property — on a well-formed template the update acts
segmentwise, fixing every literal chunk and every placeholder whose archive
file is absent. -/
theorem claim10_frame (version : List Char) (dir : Dir) (segs : List Seg)
    (hwf : wf segs) (hb : goodBare (normalize version).1) :
    updateContent version dir (render segs) =
      render (segs.map (segF version dir)) ∧
    (∀ s, segF version dir (Seg.lit s) = Seg.lit s) ∧
    (∀ i : Fin 5, lookupFile dir (fname i) = none →
      segF version dir (Seg.ph i) = Seg.ph i) := by
  refine ⟨?_, fun s => segF_lit version dir s,
    fun i hi => segF_ph_absent version hi⟩
  rw [updateContent_render version dir segs hwf hb, segUpdate_eq_map]

/-- Witness for C10 at a concrete template with an absent placeholder. -/
theorem claim10_witness :
    updateContent "v3.0.0".toList []
      (render [Seg.lit "name: x\n".toList, Seg.vdecl "1.0".toList,
        Seg.ph 0]) =
      render ([Seg.lit "name: x\n".toList, Seg.vdecl "1.0".toList,
        Seg.ph 0].map (segF "v3.0.0".toList [])) :=
  (claim10_frame "v3.0.0".toList [] _ (by decide) (by decide)).1

/-- C2 counterexample: the linux-amd64 archive is present, yet its
placeholder occurs in the output — the windows digest starts with `4` and
completes a truncated placeholder fragment in the template. -/
theorem claim2_counterexample :
    (lookupFile
      [("cloudworkstation-linux-amd64.tar.gz".toList, [0]),
       ("cloudworkstation-windows-amd64.zip".toList, [1])]
      "cloudworkstation-linux-amd64.tar.gz".toList).isSome = true ∧
    "REPLACE_WITH_ACTUAL_CHECKSUM_LINUX_AMD64".toList <:+:
      updateContent "1.0".toList
        [("cloudworkstation-linux-amd64.tar.gz".toList, [0]),
         ("cloudworkstation-windows-amd64.zip".toList, [1])]
        ("REPLACE_WITH_ACTUAL_CHECKSUM_LINUX_AMD6".toList ++
         "REPLACE_WITH_ACTUAL_CHECKSUM_WINDOWS".toList) := by
  decide

/-- C2 amended: on a well-formed template (placeholders occurring only as
whole segments) and a good bare version, placeholders of present files do
not occur in the output, and placeholders of absent files survive as the
same segments at the same positions. -/
theorem claim2_placeholders (version : List Char) (dir : Dir)
    (segs : List Seg) (hwf : wf segs)
    (hb : goodBare (normalize version).1) :
    (∀ i : Fin 5, (∃ content, lookupFile dir (fname i) = some content) →
      ¬ (pholder i <:+: updateContent version dir (render segs))) ∧
    (∀ i : Fin 5, lookupFile dir (fname i) = none → ∀ k : Nat,
      (segs.map (segF version dir))[k]? = some (Seg.ph i) ↔
        segs[k]? = some (Seg.ph i)) ∧
    updateContent version dir (render segs) =
      render (segs.map (segF version dir)) := by
  have hmain : updateContent version dir (render segs) =
      render (segs.map (segF version dir)) := by
    rw [updateContent_render version dir segs hwf hb, segUpdate_eq_map]
  have hwf' : wf (segs.map (segF version dir)) := by
    intro sg hsg
    obtain ⟨x, hx, rfl⟩ := List.mem_map.mp hsg
    exact segF_wfSeg (hwf x hx) hb
  refine ⟨?_, ?_, hmain⟩
  · rintro i ⟨content, hc⟩ hinf
    rw [hmain] at hinf
    refine pholder_not_infix_render i _ hwf' ?_ hinf
    intro j hj heq
    have hji : j = i := pholder_inj j i heq
    subst hji
    obtain ⟨x, hx, hxe⟩ := List.mem_map.mp hj
    have hxp : x = Seg.ph j := segF_result_ph hxe
    subst hxp
    obtain ⟨d, hd, _⟩ := segF_ph_present version hc
    exact Seg.noConfusion (hxe.symm.trans hd)
  · intro i hi k
    rw [List.getElem?_map]
    cases hk : segs[k]? with
    | none => simp
    | some sg =>
      simp only [Option.map_some', Option.some.injEq]
      constructor
      · intro hsf
        rw [segF_result_ph hsf]
      · intro hsg
        subst hsg
        exact segF_ph_absent version hi

/-- Witness for C2: a present file's placeholder is gone from the output. -/
theorem claim2_witness :
    ¬ (pholder 0 <:+:
      updateContent "v3.0.0".toList
        [("cloudworkstation-linux-amd64.tar.gz".toList, [0])]
        (render [Seg.lit "sha256: ".toList, Seg.ph 0])) :=
  (claim2_placeholders "v3.0.0".toList
    [("cloudworkstation-linux-amd64.tar.gz".toList, [0])]
    [Seg.lit "sha256: ".toList, Seg.ph 0] (by decide) (by decide)).1 0
    ⟨[0], by decide⟩

end UpdateConda
